import Mathlib

/-!
Verification development for the tsol-asm codec core: a shallow embedding of
the cell-packing assembler (`src/writer.rs`) and of the disassembler's
dictionary machinery (`src/disasm/codedict.rs`), together with theorems
checking the design document's claims against the embedded code.

Conventions of the embedding:
* machine integers become `Nat`; byte/bit buffers become `List Bool`;
* fallible operations return `Option` or `Except String` (`none` / `.error`
  corresponding to the Rust `Err` path), and a Rust `unwrap`/`expect` panic is
  modelled by an `Option` result of the enclosing operation being `none`;
* the external cell substrate (tycho_types) is modelled by its guaranteed
  properties from the design document: a cell holds at most 1023 content bits
  and at most 4 child references, builders check capacity on every store, and
  content hashes identify cells uniquely (so hash comparison is modelled as
  structural equality of cells).
-/

/-- Hard bit capacity of a cell (external substrate guarantee). -/
def MAX_BIT_LEN : Nat := 1023

/-- Hard reference capacity of a cell (external substrate guarantee). -/
def MAX_REF_COUNT : Nat := 4

/-- A finished cell of the external substrate: content bits plus child
references, both bounded by the substrate's capacity checks. -/
inductive Cell where
  | mk : List Bool → List Cell → Cell


/-- Content bits of a cell. -/
def Cell.bits : Cell → List Bool
  | .mk b _ => b

/-- Child references of a cell. -/
def Cell.refs : Cell → List Cell
  | .mk _ r => r

/-- A cell builder: the mutable accumulator of the external substrate.
Every store operation checks capacity and fails instead of overflowing. -/
structure CellBuilder where
  bits : List Bool
  refs : List Cell


/-- `CellBuilder::new`: the empty builder. -/
def CellBuilder.new : CellBuilder := ⟨[], []⟩

/-- `CellBuilder::size_bits`. -/
def CellBuilder.size_bits (b : CellBuilder) : Nat := b.bits.length

/-- `CellBuilder::size_refs`. -/
def CellBuilder.size_refs (b : CellBuilder) : Nat := b.refs.length

/-- `CellBuilder::spare_capacity_refs`: free reference slots. -/
def CellBuilder.spare_capacity_refs (b : CellBuilder) : Nat :=
  MAX_REF_COUNT - b.refs.length

/-- `CellBuilder::store_raw`: append raw bits, failing when the bit capacity
would be exceeded. -/
def CellBuilder.store_raw (b : CellBuilder) (data : List Bool) : Option CellBuilder :=
  if b.bits.length + data.length ≤ MAX_BIT_LEN then
    some ⟨b.bits ++ data, b.refs⟩
  else
    none

/-- `CellBuilder::store_reference`: append one child reference, failing when
all reference slots are used. -/
def CellBuilder.store_reference (b : CellBuilder) (c : Cell) : Option CellBuilder :=
  if b.refs.length < MAX_REF_COUNT then
    some ⟨b.bits, b.refs ++ [c]⟩
  else
    none

/-- `CellBuilder::store_slice`: append a whole cell's bits and references,
failing when either capacity would be exceeded. -/
def CellBuilder.store_slice (b : CellBuilder) (c : Cell) : Option CellBuilder :=
  if b.bits.length + c.bits.length ≤ MAX_BIT_LEN ∧
      b.refs.length + c.refs.length ≤ MAX_REF_COUNT then
    some ⟨b.bits ++ c.bits, b.refs ++ c.refs⟩
  else
    none

/-- `CellBuilder::build`: seal the builder into a cell.  A builder only ever
holds capacity-checked content, so building always succeeds. -/
def CellBuilder.build (b : CellBuilder) : Cell := Cell.mk b.bits b.refs

/-- `CellBuilder::from_raw_data`: a fresh builder seeded with raw bits,
failing when the bits alone exceed the capacity. -/
def CellBuilder.from_raw_data (data : List Bool) : Option CellBuilder :=
  if data.length ≤ MAX_BIT_LEN then some ⟨data, []⟩ else none

/-- Modelled from the spec: `DbgNode` (src/debug.rs, which is not under
src/) is a tree mirroring the cell tree's shape, mapping bit offsets within a
cell to source-level debug spans, with one child subtree per attached
reference cell (spec sections 3 and 4.3).  Spans are abstract identifiers. -/
inductive DbgNode where
  | mk : List (Nat × Nat) → List DbgNode → DbgNode


/-- Offset-to-span entries of a debug node. -/
def DbgNode.offsets : DbgNode → List (Nat × Nat)
  | .mk o _ => o

/-- Attached children of a debug node. -/
def DbgNode.children : DbgNode → List DbgNode
  | .mk _ c => c

/-- The empty debug node. -/
def DbgNode.empty : DbgNode := .mk [] []

/-- Modelled from the spec: `DbgNode::inline_node` shifts every offset entry
of the inlined node by the given offset (the destination's bit size measured
before the content is appended) and adopts the inlined node's attached
children unchanged (spec section 4.3: attached children keep offsets relative
to their own cell). -/
def DbgNode.inline_node (self : DbgNode) (offset : Nat) (d : DbgNode) : DbgNode :=
  .mk (self.offsets ++ d.offsets.map (fun p => (p.1 + offset, p.2)))
    (self.children ++ d.children)

/-- Modelled from the spec: `DbgNode::append_node` records an attached
(non-inlined) child debug subtree, leaving its offsets untouched. -/
def DbgNode.append_node (self : DbgNode) (d : DbgNode) : DbgNode :=
  .mk self.offsets (self.children ++ [d])

namespace Asm

/-- `Unit` (src/writer.rs): a partially built cell together with the debug
subtree accumulated for it. -/
structure Unit where
  builder : CellBuilder
  dbg : DbgNode


/-- `Unit::default()`. -/
def Unit.default : Unit := ⟨CellBuilder.new, DbgNode.empty⟩

/-- `Units` (src/writer.rs): the stack of units; the list's last element is
the most recently pushed (the currently open) unit. -/
structure Units where
  units : List Unit


/-- `Units::new`: a single empty unit. -/
def Units.new : Units := ⟨[Unit.default]⟩

/-- `Units::write_unit`: push an assembled unit (always `Ok`). -/
def Units.write_unit (s : Units) (u : Unit) : Units := ⟨s.units ++ [u]⟩

/-- `Units::write_command_bitstring` (src/writer.rs lines 63-81): append the
command bits to the currently open builder when they fit, recording the debug
node inlined at the builder's previous bit size; otherwise open a fresh cell
seeded with the bits; fail when the bits alone exceed a cell's capacity. -/
def Units.write_command_bitstring (s : Units) (command : List Bool) (dbg : DbgNode) :
    Option Units :=
  match s.units.getLast? with
  | some last =>
    let orig_offset := last.builder.size_bits
    match last.builder.store_raw command with
    | some b => some ⟨s.units.dropLast ++ [⟨b, last.dbg.inline_node orig_offset dbg⟩]⟩
    | none =>
      match CellBuilder.from_raw_data command with
      | some new_last => some ⟨s.units ++ [⟨new_last, dbg⟩]⟩
      | none => none
  | none =>
    match CellBuilder.from_raw_data command with
    | some new_last => some ⟨s.units ++ [⟨new_last, dbg⟩]⟩
    | none => none

/-- `Units::write_command`: a byte-aligned command is the same call with the
full byte string as bits. -/
def Units.write_command (s : Units) (command : List Bool) (dbg : DbgNode) :
    Option Units :=
  s.write_command_bitstring command dbg

/-- `checked_append_references` (src/writer.rs lines 136-149): build each
reference and append it to the builder, reporting `none` (the source's
`Ok(false)`) as soon as one does not fit. -/
def checked_append_references (b : CellBuilder) (refs : List CellBuilder) :
    Option CellBuilder :=
  match refs with
  | [] => some b
  | r :: rest =>
    match b.store_reference r.build with
    | some b1 => checked_append_references b1 rest
    | none => none

/-- `Units::write_composite_command` (src/writer.rs lines 83-111): try to
extend a clone of the open unit in place — this requires strictly more spare
reference slots than references being attached (one slot stays reserved for
finalization), the bits to fit, and every reference to fit; if the in-place
attempt fails, start a fresh cell with the same payload, with no spare-slot
reservation; fail only when even the fresh cell cannot hold the payload. -/
def Units.write_composite_command (s : Units) (command : List Bool)
    (references : List CellBuilder) (dbg : DbgNode) : Option Units :=
  let inPlace : Option Units :=
    match s.units.getLast? with
    | some last =>
      let orig_offset := last.builder.size_bits
      if last.builder.spare_capacity_refs > references.length then
        match last.builder.store_raw command with
        | some b1 =>
          match checked_append_references b1 references with
          | some b2 =>
            some ⟨s.units.dropLast ++ [⟨b2, last.dbg.inline_node orig_offset dbg⟩]⟩
          | none => none
        | none => none
      else none
    | none => none
  match inPlace with
  | some r => some r
  | none =>
    match CellBuilder.new.store_raw command with
    | some b1 =>
      match checked_append_references b1 references with
      | some b2 => some ⟨s.units ++ [⟨b2, dbg⟩]⟩
      | none => none
    | none => none

/-- One step of `Units::finalize`'s loop plus the remaining iterations:
`cursor` is the unit most recently popped, `rest` lists the remaining stack
most-recent-first.  Inline the cursor's built cell into the next unit down
when it fits, otherwise attach it as a child reference; `none` models the
panic of the source's `store_reference(cell).unwrap()`. -/
def finalizeGo : Unit → List Unit → Option (CellBuilder × DbgNode)
  | cursor, [] => some (cursor.builder, cursor.dbg)
  | cursor, destination :: rest =>
    let orig_offset := destination.builder.size_bits
    let cell := cursor.builder.build
    match destination.builder.store_slice cell with
    | some b => finalizeGo ⟨b, destination.dbg.inline_node orig_offset cursor.dbg⟩ rest
    | none =>
      match destination.builder.store_reference cell with
      | some b => finalizeGo ⟨b, destination.dbg.append_node cursor.dbg⟩ rest
      | none => none

/-- `Units::finalize` (src/writer.rs lines 114-133): collapse the stack from
the most recently pushed unit toward the first; `none` models a panic (the
`expect` on an empty stack or the `unwrap` on a full destination). -/
def Units.finalize (s : Units) : Option (CellBuilder × DbgNode) :=
  match s.units.reverse with
  | [] => none
  | cursor :: rest => finalizeGo cursor rest

end Asm

mutual

/-- Modelled from the spec: `InstructionParameter` (src/disasm/types.rs, which
is not under src/) is a closed tagged union over integer literals, raw
bit-string literals, references to nested decoded code (owning the decoded
sequence plus the original cell), opaque slice references, and the marker tag
appended by elaboration passes (spec section 3). -/
inductive InstructionParameter where
  | Integer : Int → InstructionParameter
  | Slice : List Bool → InstructionParameter
  | Code : List Instruction → Cell → InstructionParameter
  | CodeDictMarker : InstructionParameter

/-- Modelled from the spec: `Instruction` (src/disasm/types.rs, which is not
under src/) is a name together with an ordered list of parameters. -/
inductive Instruction where
  | mk : String → List InstructionParameter → Instruction

end

/-- Modelled from the spec: `Code` is an ordered sequence of instructions. -/
def Code := List Instruction

/-- Instruction name (`Instruction::name`). -/
def Instruction.name : Instruction → String
  | .mk n _ => n

/-- Instruction parameters (`Instruction::params` / `params_mut`). -/
def Instruction.params : Instruction → List InstructionParameter
  | .mk _ p => p

/-- `match_dictpushconst_dictugetjmp` (src/disasm/codedict.rs lines 25-37) as
a predicate on an adjacent instruction pair: the second instruction is named
DICTUGETJMP or DICTUGETJMPZ and the first DICTPUSHCONST or PFXDICTSWITCH. -/
def match_dictpushconst_dictugetjmp (i1 i2 : Instruction) : Bool :=
  (i2.name == "DICTUGETJMP" || i2.name == "DICTUGETJMPZ") &&
    (i1.name == "DICTPUSHCONST" || i1.name == "PFXDICTSWITCH")

/-- `Code::process_dictpushconst_dictugetjmp` (src/disasm/codedict.rs lines
40-47): scan the instruction list in non-overlapping chunks of two and, when
a chunk matches, append one `CodeDictMarker` parameter to the chunk's first
instruction. -/
def Code.process_dictpushconst_dictugetjmp : List Instruction → List Instruction
  | i1 :: i2 :: rest =>
    if match_dictpushconst_dictugetjmp i1 i2 then
      Instruction.mk i1.name (i1.params ++ [.CodeDictMarker]) :: i2 ::
        Code.process_dictpushconst_dictugetjmp rest
    else
      i1 :: i2 :: Code.process_dictpushconst_dictugetjmp rest
  | rest => rest

mutual

/-- Elaboration of one instruction: elaborate its parameters. -/
def elaborateInsn : Instruction → Instruction
  | .mk n ps => .mk n (elaborateParams ps)

/-- Elaboration of a parameter list. -/
def elaborateParams : List InstructionParameter → List InstructionParameter
  | [] => []
  | p :: rest => elaborateParam p :: elaborateParams rest

/-- Elaboration of one parameter: a nested code subtree is processed as its
own `Code` node; other parameters are left untouched. -/
def elaborateParam : InstructionParameter → InstructionParameter
  | .Code c cell => .Code (Code.process_dictpushconst_dictugetjmp (elaborateList c)) cell
  | .Integer n => .Integer n
  | .Slice s => .Slice s
  | .CodeDictMarker => .CodeDictMarker

/-- Elaboration of an instruction list (descending only; the node itself is
processed by the caller). -/
def elaborateList : List Instruction → List Instruction
  | [] => []
  | i :: rest => elaborateInsn i :: elaborateList rest

end

/-- `Code::elaborate_dictpushconst_dictugetjmp` (src/disasm/codedict.rs lines
49-69): apply `process_dictpushconst_dictugetjmp` to every `Code` node of the
tree.  The source walks the tree with an explicit stack, processing a node
before descending into its nested code parameters; since processing appends
only marker parameters (never code parameters) and reads only instruction
names, processing a node and elaborating its nested nodes commute, and the
traversal is modelled by this structural recursion with the same result. -/
def Code.elaborate_dictpushconst_dictugetjmp (c : List Instruction) : List Instruction :=
  Code.process_dictpushconst_dictugetjmp (elaborateList c)

mutual

/-- Structural equality of cells.  The substrate identifies cells uniquely by
content hash, so `repr_hash` comparison is modelled as structural equality. -/
def Cell.beq : Cell → Cell → Bool
  | .mk b1 r1, .mk b2 r2 => b1 == b2 && Cell.beqList r1 r2

/-- Structural equality of reference lists: counts equal and every index
equal, mirroring the per-index hash comparison of the source. -/
def Cell.beqList : List Cell → List Cell → Bool
  | [], [] => true
  | c1 :: r1, c2 :: r2 => Cell.beq c1 c2 && Cell.beqList r1 r2
  | _, _ => false

end

/-- A dictionary value as `locate` sees it: the value slice's remaining data
bits and remaining references. -/
structure ValueSlice where
  bits : List Bool
  refs : List Cell

/-- `DelimitedHashmapE::slice_eq_data` (src/disasm/codedict.rs lines 86-88):
lexicographic comparison of the remaining data returns Equal exactly when the
remaining bits coincide. -/
def slice_eq_data (lhs rhs : List Bool) : Bool := lhs == rhs

/-- `DelimitedHashmapE::slice_eq_children` (src/disasm/codedict.rs lines
89-102): reference counts equal and the content hash of every reference pair
equal. -/
def slice_eq_children (lhs rhs : List Cell) : Bool := Cell.beqList lhs rhs

/-- The scanning loop inside `locate` (src/disasm/codedict.rs lines 105-112):
test data equality at the current position, then load one bit and retry until
the slice is exhausted; a success returns the bit offset at which the
remaining data equals the target's data. -/
def scanData (bits : List Bool) (target : List Bool) (offset : Nat) : Option Nat :=
  if slice_eq_data bits target then some offset
  else
    match bits with
    | [] => none
    | _ :: rest => scanData rest target (offset + 1)

mutual

/-- `DelimitedHashmapE::locate` (src/disasm/codedict.rs lines 103-124): when
the current node's references match the target's references hash-by-hash,
scan the node's data for an alignment offset; otherwise, or when the scan
fails, recurse into each child reference in index order, extending the path,
and return the first success. -/
def locate (cell : Cell) (target : ValueSlice) (path : List Nat) :
    Option (List Nat × Nat) :=
  match cell with
  | .mk bits refs =>
    match
      (if slice_eq_children refs target.refs then
        (scanData bits target.bits 0).map (fun off => (path, off))
      else none) with
    | some v => some v
    | none => locateRefs refs target path 0

/-- The reference recursion of `locate`: children are tried in index order,
with the child's index appended to the path. -/
def locateRefs : List Cell → ValueSlice → List Nat → Nat → Option (List Nat × Nat)
  | [], _, _, _ => none
  | child :: rest, target, path, i =>
    match locate child target (path ++ [i]) with
    | some v => some v
    | none => locateRefs rest target path (i + 1)

end

/-- Follow a path of child-reference indices down from a root cell. -/
def followPath : Cell → List Nat → Option Cell
  | c, [] => some c
  | c, i :: rest =>
    match c.refs.get? i with
    | some child => followPath child rest
    | none => none

/-- Modelled from the spec: `Loader::load` (src/disasm/loader.rs, which is
not under src/) decodes a value slice into a `Code`.  The dictionary claims
do not depend on the decoded structure, so a successful decode is modelled as
a single opaque-slice instruction carrying the value's bits. -/
def Loader.load (value : ValueSlice) : List Instruction :=
  [.mk "OPAQUE" [.Slice value.bits]]

/-- Least entry of a list by numeric key (ties, impossible in a dictionary,
resolve to the earlier entry). -/
def minByKey : List (Nat × ValueSlice) → Option (Nat × ValueSlice)
  | [] => none
  | e :: rest =>
    match minByKey rest with
    | none => some e
    | some b => if e.1 ≤ b.1 then some e else some b

/-- The entries whose key is strictly greater than `k`. -/
def keysGreater (entries : List (Nat × ValueSlice)) (k : Nat) :
    List (Nat × ValueSlice) :=
  entries.filter (fun e => k < e.1)

/-- Modelled from the spec: the external `dict_find_bound_owned` lookup with
bound Min returns the entry with the least key. -/
def dictFindMin (entries : List (Nat × ValueSlice)) : Option (Nat × ValueSlice) :=
  minByKey entries

/-- Modelled from the spec: the external `dict_find_owned` lookup with bound
Max and non-inclusive comparison returns the entry with the least key
strictly greater than `k`. -/
def dictFindNext (entries : List (Nat × ValueSlice)) (k : Nat) :
    Option (Nat × ValueSlice) :=
  minByKey (keysGreater entries k)

theorem minByKey_none_nil {l : List (Nat × ValueSlice)}
    (h : minByKey l = none) : l = [] := by
  cases l with
  | nil => rfl
  | cons a rest =>
    rw [minByKey] at h
    cases hr : minByKey rest with
    | none => rw [hr] at h; simp at h
    | some b => rw [hr] at h; by_cases hc : a.1 ≤ b.1 <;> simp [hc] at h

theorem minByKey_mem {l : List (Nat × ValueSlice)} {e : Nat × ValueSlice}
    (h : minByKey l = some e) : e ∈ l := by
  induction l with
  | nil => simp [minByKey] at h
  | cons a rest ih =>
    rw [minByKey] at h
    cases hr : minByKey rest with
    | none => rw [hr] at h; simp_all
    | some b =>
      rw [hr] at h
      by_cases hc : a.1 ≤ b.1 <;> simp [hc] at h <;> simp_all

theorem minByKey_le {l : List (Nat × ValueSlice)} : ∀ {e : Nat × ValueSlice},
    minByKey l = some e → ∀ x ∈ l, e.1 ≤ x.1 := by
  induction l with
  | nil => intro e h; simp [minByKey] at h
  | cons a rest ih =>
    intro e h
    rw [minByKey] at h
    intro x hx
    cases hr : minByKey rest with
    | none =>
      rw [hr] at h
      simp only [Option.some.injEq] at h
      subst h
      have hnil : rest = [] := minByKey_none_nil hr
      subst hnil
      rcases List.mem_cons.mp hx with hx | hx
      · simp [hx]
      · cases hx
    | some b =>
      rw [hr] at h
      by_cases hc : a.1 ≤ b.1
      · simp only [if_pos hc, Option.some.injEq] at h
        subst h
        rcases List.mem_cons.mp hx with hx | hx
        · simp [hx]
        · exact le_trans hc (ih hr x hx)
      · simp only [if_neg hc, Option.some.injEq] at h
        subst h
        rcases List.mem_cons.mp hx with hx | hx
        · subst hx; omega
        · exact ih hr x hx

theorem length_filter_mono {α : Type} (l : List α) (p q : α → Bool)
    (himp : ∀ a, p a = true → q a = true) :
    (l.filter p).length ≤ (l.filter q).length := by
  induction l with
  | nil => simp
  | cons x xs ih =>
    by_cases hp : p x = true
    · have hq := himp x hp
      simp [List.filter, hp, hq]
      omega
    · have hp' : p x = false := by simp_all
      cases hq : q x <;> simp [List.filter, hp', hq] <;> omega

theorem length_filter_lt {α : Type} (l : List α) (p q : α → Bool)
    (himp : ∀ a, p a = true → q a = true) (a : α) (ha : a ∈ l)
    (hqa : q a = true) (hpa : p a = false) :
    (l.filter p).length < (l.filter q).length := by
  induction l with
  | nil => cases ha
  | cons x xs ih =>
    rcases List.mem_cons.mp ha with hx | hx
    · subst hx
      simp [List.filter, hpa, hqa]
      exact Nat.lt_succ_of_le (length_filter_mono xs p q himp)
    · have h' := ih hx
      by_cases hp : p x = true
      · have hq := himp x hp
        simp [List.filter, hp, hq]
        omega
      · have hp' : p x = false := by simp_all
        cases hq : q x <;> simp [List.filter, hp', hq] <;> omega

/-- Modelled from the spec: the dictionary as seen through the external
lookup API: its root cell (the physical tree that `locate` searches), its
logical entries (fixed-width numeric keys with their value slices), and the
result of the initial minimum-key lookup, which the external primitive may
also report as an error on a malformed dictionary.  The `key_size` field of
the source only shapes how raw key bits become numbers and is absorbed into
the numeric keys. -/
structure DictModel where
  root : Cell
  entries : List (Nat × ValueSlice)
  minResult : Except String (Option (Nat × ValueSlice))

/-- The dictionary model whose initial minimum-key lookup succeeds and agrees
with the logical entries. -/
def DictModel.ofEntries (root : Cell) (entries : List (Nat × ValueSlice)) :
    DictModel :=
  ⟨root, entries, .ok (dictFindMin entries)⟩

/-- The state `mark` accumulates: the resolved map `path → (key id, bit
offset, decoded code)` (the source's `self.map`) and, for specification
purposes only, the keys in visit order. -/
structure MarkState where
  map : List (List Nat × (Nat × Nat × List Instruction))
  visited : List Nat

/-- The loop body of `DelimitedHashmapE::mark` (src/disasm/codedict.rs lines
135-164), iterated from the current key/value: locate the value in the
physical tree (failing with "not found" when impossible), decode it, record
it under the located path (failing with "non-unique path found" when the
path is already present), then advance to the least strictly-greater key
until none remains. -/
def markGo (root : Cell) (entries : List (Nat × ValueSlice)) (key : Nat)
    (value : ValueSlice) (st : MarkState) : Except String MarkState :=
  match locate root value [] with
  | none => .error "not found"
  | some loc =>
    let code := Loader.load value
    if (st.map.lookup loc.1).isSome then .error "non-unique path found"
    else
      let st1 : MarkState :=
        ⟨st.map ++ [(loc.1, (key, loc.2, code))], st.visited ++ [key]⟩
      match hnext : dictFindNext entries key with
      | none => .ok st1
      | some (k1, v1) => markGo root entries k1 v1 st1
termination_by (keysGreater entries key).length
decreasing_by
  have hmem : (k1, v1) ∈ keysGreater entries key := minByKey_mem hnext
  have hgt : key < k1 := by
    have := List.of_mem_filter hmem
    simpa using this
  have hent : (k1, v1) ∈ entries := List.mem_of_mem_filter hmem
  exact length_filter_lt entries (fun e => k1 < e.1) (fun e => key < e.1)
    (by intro a ha; simp_all; omega) (k1, v1) hent (by simpa using hgt)
    (by simp)

/-- `DelimitedHashmapE::mark` (src/disasm/codedict.rs lines 125-168): when
the initial minimum-key lookup errs or finds no key, return `Ok` with the map
left empty; otherwise run the loop from the minimum key. -/
def mark (d : DictModel) : Except String MarkState :=
  match d.minResult with
  | .error _ => .ok ⟨[], []⟩
  | .ok none => .ok ⟨[], []⟩
  | .ok (some (key, value)) => markGo d.root d.entries key value ⟨[], []⟩

theorem markGo_unfold (root : Cell) (entries : List (Nat × ValueSlice)) (key : Nat)
    (value : ValueSlice) (st : MarkState) :
    markGo root entries key value st =
      match locate root value [] with
      | none => .error "not found"
      | some loc =>
        if (st.map.lookup loc.1).isSome then .error "non-unique path found"
        else
          let st1 : MarkState :=
            ⟨st.map ++ [(loc.1, (key, loc.2, Loader.load value))], st.visited ++ [key]⟩
          match dictFindNext entries key with
          | none => .ok st1
          | some (k1, v1) => markGo root entries k1 v1 st1 := by
  rw [markGo]
  cases hloc : locate root value [] with
  | none => rfl
  | some loc =>
    by_cases hlk : (st.map.lookup loc.1).isSome
    · simp [hlk]
    · simp only [if_neg hlk]
      split <;> rename_i hnext <;> rw [hnext]

/-- Four empty reference builders: the subtrees of a composite command that
carries the maximum number of references. -/
def refs4 : List CellBuilder := List.replicate 4 CellBuilder.new

/-- The debug node matching `refs4`: one child per attached reference, as the
source's assert demands. -/
def dbg4 : DbgNode := .mk [] (List.replicate 4 DbgNode.empty)

/-- The unit that the fresh-cell path of `write_composite_command` produces
for an empty command with the `refs4` subtrees: all four reference slots
used, no slot left reserved. -/
def fullUnit : Asm.Unit := ⟨⟨[], List.replicate 4 (Cell.mk [] [])⟩, dbg4⟩

/-- The stack reached from `Units::new` by two successful
`write_composite_command` calls with four references each. -/
def overfullStack : Asm.Units := ⟨[Asm.Unit.default, fullUnit, fullUnit]⟩

/-- C3: evaluation at the failing input.  For an empty command with four
reference subtrees the one-slot reservation cannot fit the payload in an
empty cell (it would need five slots), so the claim predicts the hard
NotFitInSlice error; the code's fresh-cell path applies no reservation and
returns Ok, filling all four slots of the new cell. -/
theorem write_composite_fresh_path_has_no_reservation :
    Asm.Units.new.write_composite_command [] refs4 dbg4 =
      some ⟨[Asm.Unit.default, fullUnit]⟩ ∧
    fullUnit.builder.refs.length = MAX_REF_COUNT := ⟨rfl, rfl⟩

/-- C1: evaluation at the failing input.  Two successful composite writes
with four references each leave a three-unit stack whose middle unit — not
the final root under any reading — has all four reference slots used,
violating the claimed at-most-3-used-slots invariant. -/
theorem composite_writes_reach_overfull_stack :
    (Asm.Units.new.write_composite_command [] refs4 dbg4).bind
        (fun s => s.write_composite_command [] refs4 dbg4) = some overfullStack ∧
    overfullStack.units.length = 3 ∧
    (overfullStack.units.getD 1 Asm.Unit.default).builder.refs.length = 4 :=
  ⟨rfl, rfl, rfl⟩

/-- C9: evaluation at the failing input.  On the reachable stack produced by
two successful four-reference composite writes, `finalize` cannot inline the
cursor into the middle unit (eight references would be needed) and cannot
attach it either (no free slot), so the source's
`store_reference(cell).unwrap()` panics — modelled by `finalize` returning
`none`. -/
theorem finalize_panics_on_overfull_stack :
    (Asm.Units.new.write_composite_command [] refs4 dbg4).bind
        (fun s => s.write_composite_command [] refs4 dbg4) = some overfullStack ∧
    overfullStack.finalize = none := ⟨rfl, rfl⟩

/-- C6: `finalize` collapses the stack tail-to-head: a single remaining unit
yields its builder and debug tree, and with at least two units the most
recently pushed unit (cursor) is merged into the one below it (destination)
— inlined as raw content when it fits, with the debug subtree inlined at the
destination's current bit size, and otherwise attached as exactly one child
reference with the debug subtree appended — after which the collapse
continues on the shortened stack. -/
theorem finalize_collapses_tail_to_head :
    (∀ u : Asm.Unit, Asm.Units.finalize ⟨[u]⟩ = some (u.builder, u.dbg)) ∧
    (∀ (us : List Asm.Unit) (d c : Asm.Unit),
      Asm.Units.finalize ⟨us ++ [d, c]⟩ =
        match d.builder.store_slice c.builder.build with
        | some b =>
          Asm.Units.finalize
            ⟨us ++ [⟨b, d.dbg.inline_node d.builder.size_bits c.dbg⟩]⟩
        | none =>
          match d.builder.store_reference c.builder.build with
          | some b => Asm.Units.finalize ⟨us ++ [⟨b, d.dbg.append_node c.dbg⟩]⟩
          | none => none) := by
  constructor
  · intro u; rfl
  · intro us d c
    cases hs : d.builder.store_slice c.builder.build with
    | some b =>
      simp [Asm.Units.finalize, Asm.finalizeGo, hs, List.reverse_append]
    | none =>
      cases hr : d.builder.store_reference c.builder.build with
      | some b =>
        simp [Asm.Units.finalize, Asm.finalizeGo, hs, hr, List.reverse_append]
      | none =>
        simp [Asm.Units.finalize, Asm.finalizeGo, hs, hr, List.reverse_append]

/-- C7: wherever a debug subtree is inlined — a command's bits appended to
the open cell by `write_command_bitstring`, or a cursor unit inlined into a
destination by `finalize` — every offset entry of the inlined subtree is
shifted by exactly the destination builder's bit size measured before the
content is appended, while its attached children are adopted unshifted; and
when `finalize` attaches the cursor's cell as a reference instead, the
cursor's debug subtree becomes one child of the destination's debug node
with all offsets unchanged. -/
theorem debug_offsets_shifted_on_inline_only :
    (∀ (us : List Asm.Unit) (last : Asm.Unit) (command : List Bool) (dbg : DbgNode)
        (b : CellBuilder), last.builder.store_raw command = some b →
      Asm.Units.write_command_bitstring ⟨us ++ [last]⟩ command dbg =
        some ⟨us ++ [⟨b, DbgNode.mk
          (last.dbg.offsets ++
            dbg.offsets.map (fun p => (p.1 + last.builder.size_bits, p.2)))
          (last.dbg.children ++ dbg.children)⟩]⟩) ∧
    (∀ (d c : Asm.Unit) (b : CellBuilder),
      d.builder.store_slice c.builder.build = some b →
      Asm.Units.finalize ⟨[d, c]⟩ = some (b, DbgNode.mk
        (d.dbg.offsets ++
          c.dbg.offsets.map (fun p => (p.1 + d.builder.size_bits, p.2)))
        (d.dbg.children ++ c.dbg.children))) ∧
    (∀ (d c : Asm.Unit) (b : CellBuilder),
      d.builder.store_slice c.builder.build = none →
      d.builder.store_reference c.builder.build = some b →
      Asm.Units.finalize ⟨[d, c]⟩ =
        some (b, DbgNode.mk d.dbg.offsets (d.dbg.children ++ [c.dbg]))) := by
  refine ⟨?_, ?_, ?_⟩
  · intro us last command dbg b hb
    simp [Asm.Units.write_command_bitstring, hb, DbgNode.inline_node,
      List.getLast?_concat, List.dropLast_concat]
  · intro d c b hb
    simp [Asm.Units.finalize, Asm.finalizeGo, hb, DbgNode.inline_node]
  · intro d c b hs hr
    simp [Asm.Units.finalize, Asm.finalizeGo, hs, hr, DbgNode.append_node]

set_option maxRecDepth 8192 in
/-- Witness for C7: the three branches at concrete inputs — inlining a
one-bit command into a one-bit builder shifts its offset entry from 0 to 1;
inlining a one-bit cursor into a one-bit destination shifts likewise;
attaching a full 1023-bit cursor leaves its offset entry at 0 inside the
attached child. -/
theorem debug_offsets_shifted_on_inline_only_witness :
    Asm.Units.write_command_bitstring ⟨[⟨⟨[true], []⟩, DbgNode.mk [(0, 7)] []⟩]⟩
        [false] (DbgNode.mk [(0, 9)] []) =
      some ⟨[⟨⟨[true, false], []⟩, DbgNode.mk [(0, 7), (1, 9)] []⟩]⟩ ∧
    Asm.Units.finalize ⟨[⟨⟨[true], []⟩, DbgNode.mk [(0, 7)] []⟩,
        ⟨⟨[false], []⟩, DbgNode.mk [(0, 5)] []⟩]⟩ =
      some (⟨[true, false], []⟩, DbgNode.mk [(0, 7), (1, 5)] []) ∧
    Asm.Units.finalize ⟨[⟨⟨[true], []⟩, DbgNode.mk [(0, 7)] []⟩,
        ⟨⟨List.replicate 1023 true, []⟩, DbgNode.mk [(0, 3)] []⟩]⟩ =
      some (⟨[true], [Cell.mk (List.replicate 1023 true) []]⟩,
        DbgNode.mk [(0, 7)] [DbgNode.mk [(0, 3)] []]) :=
  ⟨debug_offsets_shifted_on_inline_only.1 [] ⟨⟨[true], []⟩, DbgNode.mk [(0, 7)] []⟩
      [false] (DbgNode.mk [(0, 9)] []) ⟨[true, false], []⟩ rfl,
    debug_offsets_shifted_on_inline_only.2.1 ⟨⟨[true], []⟩, DbgNode.mk [(0, 7)] []⟩
      ⟨⟨[false], []⟩, DbgNode.mk [(0, 5)] []⟩ ⟨[true, false], []⟩ rfl,
    debug_offsets_shifted_on_inline_only.2.2 ⟨⟨[true], []⟩, DbgNode.mk [(0, 7)] []⟩
      ⟨⟨List.replicate 1023 true, []⟩, DbgNode.mk [(0, 3)] []⟩
      ⟨[true], [Cell.mk (List.replicate 1023 true) []]⟩ rfl rfl⟩

/-- Default instruction used for out-of-range list indexing. -/
def defaultInsn : Instruction := .mk "" []

theorem process_dpc_length :
    ∀ c : List Instruction,
      (Code.process_dictpushconst_dictugetjmp c).length = c.length
  | [] => rfl
  | [_] => rfl
  | i1 :: i2 :: rest => by
    by_cases h : match_dictpushconst_dictugetjmp i1 i2 = true <;>
      simp [Code.process_dictpushconst_dictugetjmp, h, process_dpc_length rest]

theorem process_dpc_getD_even :
    ∀ (c : List Instruction) (k : Nat), k % 2 = 0 →
      (Code.process_dictpushconst_dictugetjmp c).getD k defaultInsn =
        (if k + 1 < c.length ∧
            match_dictpushconst_dictugetjmp
              (c.getD k defaultInsn) (c.getD (k + 1) defaultInsn) = true
         then Instruction.mk (c.getD k defaultInsn).name
            ((c.getD k defaultInsn).params ++ [.CodeDictMarker])
         else c.getD k defaultInsn)
  | [], k, _ => by simp [Code.process_dictpushconst_dictugetjmp]
  | [i], k, _ => by
    cases k with
    | zero => simp [Code.process_dictpushconst_dictugetjmp]
    | succ n => simp [Code.process_dictpushconst_dictugetjmp]
  | i1 :: i2 :: rest, 0, _ => by
    by_cases h : match_dictpushconst_dictugetjmp i1 i2 = true <;>
      simp [Code.process_dictpushconst_dictugetjmp, h]
  | i1 :: i2 :: rest, 1, hk => by omega
  | i1 :: i2 :: rest, (k + 2), hk => by
    have hk2 : k % 2 = 0 := by omega
    have ih := process_dpc_getD_even rest k hk2
    have harith : (k + 2 < rest.length + 1) = (k + 1 < rest.length) :=
      propext (by omega)
    by_cases h : match_dictpushconst_dictugetjmp i1 i2 = true <;>
      simp [Code.process_dictpushconst_dictugetjmp, h, harith] <;>
      simpa using ih

theorem process_dpc_getD_odd :
    ∀ (c : List Instruction) (k : Nat), k % 2 = 1 →
      (Code.process_dictpushconst_dictugetjmp c).getD k defaultInsn =
        c.getD k defaultInsn
  | [], k, _ => by simp [Code.process_dictpushconst_dictugetjmp]
  | [_], k, _ => by simp [Code.process_dictpushconst_dictugetjmp]
  | i1 :: i2 :: rest, 0, hk => by omega
  | i1 :: i2 :: rest, 1, _ => by
    by_cases h : match_dictpushconst_dictugetjmp i1 i2 = true <;>
      simp [Code.process_dictpushconst_dictugetjmp, h]
  | i1 :: i2 :: rest, (k + 2), hk => by
    have hk2 : k % 2 = 1 := by omega
    have ih := process_dpc_getD_odd rest k hk2
    by_cases h : match_dictpushconst_dictugetjmp i1 i2 = true <;>
      simp [Code.process_dictpushconst_dictugetjmp, h] <;>
      simpa using ih

/-- C2: counterexample.  The pass scans disjoint chunks of two rather than
every adjacent pair: in the sequence NOP; DICTPUSHCONST; DICTUGETJMP the
matching adjacent pair sits at indices 1 and 2, straddling a chunk boundary,
so elaboration leaves the sequence entirely unchanged even though the claim
demands a marker on the DICTPUSHCONST instruction. -/
theorem elaborate_misses_straddling_pair :
    match_dictpushconst_dictugetjmp
        (.mk "DICTPUSHCONST" []) (.mk "DICTUGETJMP" []) = true ∧
    Code.elaborate_dictpushconst_dictugetjmp
        [.mk "NOP" [], .mk "DICTPUSHCONST" [], .mk "DICTUGETJMP" []] =
      [.mk "NOP" [], .mk "DICTPUSHCONST" [], .mk "DICTUGETJMP" []] :=
  ⟨rfl, rfl⟩

/-- C2 amended: for every Code node, including nested ones, the elaboration
pass preserves the instruction count; the instruction at an even index 2k
gains exactly one CodeDictMarker parameter, appended after its existing
parameters, precisely when an instruction exists at index 2k+1 and the two
match the dictionary idiom, and is unchanged otherwise; an instruction at an
odd index is never changed (in particular the second instruction of a
matching chunk gains nothing, and a matching pair straddling a chunk
boundary gains nothing); nested Code nodes are elaborated by the same
rule. -/
theorem elaborate_marks_aligned_pairs_only :
    (∀ c : List Instruction,
      (Code.process_dictpushconst_dictugetjmp c).length = c.length) ∧
    (∀ (c : List Instruction) (k : Nat), k % 2 = 0 →
      (Code.process_dictpushconst_dictugetjmp c).getD k defaultInsn =
        (if k + 1 < c.length ∧
            match_dictpushconst_dictugetjmp
              (c.getD k defaultInsn) (c.getD (k + 1) defaultInsn) = true
         then Instruction.mk (c.getD k defaultInsn).name
            ((c.getD k defaultInsn).params ++ [.CodeDictMarker])
         else c.getD k defaultInsn)) ∧
    (∀ (c : List Instruction) (k : Nat), k % 2 = 1 →
      (Code.process_dictpushconst_dictugetjmp c).getD k defaultInsn =
        c.getD k defaultInsn) ∧
    (∀ c : List Instruction,
      Code.elaborate_dictpushconst_dictugetjmp c =
        Code.process_dictpushconst_dictugetjmp (elaborateList c)) ∧
    (∀ (c : List Instruction) (cell : Cell),
      elaborateParam (.Code c cell) =
        .Code (Code.elaborate_dictpushconst_dictugetjmp c) cell) :=
  ⟨process_dpc_length, process_dpc_getD_even, process_dpc_getD_odd,
    fun _ => rfl, fun _ _ => rfl⟩

/-- Witness for C2's amended theorem: on the aligned pair DICTPUSHCONST;
DICTUGETJMPZ the first instruction gains exactly the marker and the second
stays unchanged. -/
theorem elaborate_marks_aligned_pairs_only_witness :
    (Code.process_dictpushconst_dictugetjmp
        [.mk "DICTPUSHCONST" [], .mk "DICTUGETJMPZ" []]).getD 0 defaultInsn =
      .mk "DICTPUSHCONST" [.CodeDictMarker] ∧
    (Code.process_dictpushconst_dictugetjmp
        [.mk "DICTPUSHCONST" [], .mk "DICTUGETJMPZ" []]).getD 1 defaultInsn =
      .mk "DICTUGETJMPZ" [] :=
  ⟨elaborate_marks_aligned_pairs_only.2.1
      [.mk "DICTPUSHCONST" [], .mk "DICTUGETJMPZ" []] 0 rfl,
    elaborate_marks_aligned_pairs_only.2.2.1
      [.mk "DICTPUSHCONST" [], .mk "DICTUGETJMPZ" []] 1 rfl⟩

theorem scanData_sound :
    ∀ (bits target : List Bool) (off o : Nat),
      scanData bits target off = some o →
      ∃ j, o = off + j ∧ j ≤ bits.length ∧ bits.drop j = target := by
  intro bits
  induction bits with
  | nil =>
    intro target off o h
    rw [scanData] at h
    by_cases he : slice_eq_data [] target = true
    · simp only [he, if_pos] at h
      refine ⟨0, ?_, by simp, ?_⟩
      · simp only [Option.some.injEq] at h; omega
      · simpa [slice_eq_data] using he
    · simp only [he, Bool.false_eq_true, if_false] at h
      cases h
  | cons b rest ih =>
    intro target off o h
    rw [scanData] at h
    by_cases he : slice_eq_data (b :: rest) target = true
    · simp only [he, if_pos] at h
      refine ⟨0, ?_, by simp, ?_⟩
      · simp only [Option.some.injEq] at h; omega
      · simpa [slice_eq_data] using he
    · simp only [he, Bool.false_eq_true, if_false] at h
      obtain ⟨j, hj, hjl, hd⟩ := ih target (off + 1) o h
      refine ⟨j + 1, by omega, by simp; omega, by simpa using hd⟩

mutual

theorem locate_sound :
    ∀ (cell : Cell) (tgt : ValueSlice) (path0 p : List Nat) (off : Nat),
      locate cell tgt path0 = some (p, off) →
      ∃ (suffix : List Nat) (c : Cell), p = path0 ++ suffix ∧
        followPath cell suffix = some c ∧
        off ≤ c.bits.length ∧ c.bits.drop off = tgt.bits ∧
        slice_eq_children c.refs tgt.refs = true
  | .mk bits refs, tgt, path0, p, off => by
    intro h
    rw [locate] at h
    by_cases hch : slice_eq_children refs tgt.refs = true
    · simp only [hch, if_pos] at h
      cases hscan : scanData bits tgt.bits 0 with
      | some o =>
        rw [hscan] at h
        simp only [Option.map_some', Option.some.injEq, Prod.mk.injEq] at h
        obtain ⟨hp, ho⟩ := h
        obtain ⟨j, hj, hjl, hd⟩ := scanData_sound bits tgt.bits 0 o hscan
        refine ⟨[], Cell.mk bits refs, by simp [hp], rfl, ?_, ?_, ?_⟩
        · simp only [Cell.bits]; omega
        · simp only [Cell.bits]; rw [← ho, hj]; simpa using hd
        · simpa [Cell.refs] using hch
      | none =>
        rw [hscan] at h
        simp only [Option.map_none'] at h
        obtain ⟨j, c0, suffix, c, hget, hp, hf, h1, h2, h3⟩ :=
          locateRefs_sound refs tgt path0 0 p off h
        refine ⟨j :: suffix, c, by simpa using hp, ?_, h1, h2, h3⟩
        rw [followPath]
        simp only [Cell.refs]
        rw [hget]
        exact hf
    · simp only [hch, Bool.false_eq_true, if_false] at h
      obtain ⟨j, c0, suffix, c, hget, hp, hf, h1, h2, h3⟩ :=
        locateRefs_sound refs tgt path0 0 p off h
      refine ⟨j :: suffix, c, by simpa using hp, ?_, h1, h2, h3⟩
      rw [followPath]
      simp only [Cell.refs]
      rw [hget]
      exact hf

theorem locateRefs_sound :
    ∀ (refs : List Cell) (tgt : ValueSlice) (path0 : List Nat) (i : Nat)
      (p : List Nat) (off : Nat),
      locateRefs refs tgt path0 i = some (p, off) →
      ∃ (j : Nat) (c0 : Cell) (suffix : List Nat) (c : Cell),
        refs.get? j = some c0 ∧ p = path0 ++ ((i + j) :: suffix) ∧
        followPath c0 suffix = some c ∧
        off ≤ c.bits.length ∧ c.bits.drop off = tgt.bits ∧
        slice_eq_children c.refs tgt.refs = true
  | [], tgt, path0, i, p, off => by
    intro h
    rw [locateRefs] at h
    cases h
  | child :: rest, tgt, path0, i, p, off => by
    intro h
    rw [locateRefs] at h
    cases h1 : locate child tgt (path0 ++ [i]) with
    | some v =>
      rw [h1] at h
      simp only [Option.some.injEq] at h
      obtain ⟨suffix, c, hp, hf, ha, hb, hc⟩ :=
        locate_sound child tgt (path0 ++ [i]) p off (by rw [h1, h])
      refine ⟨0, child, suffix, c, rfl, ?_, hf, ha, hb, hc⟩
      simpa using hp
    | none =>
      rw [h1] at h
      obtain ⟨j, c0, suffix, c, hget, hp, hf, ha, hb, hc⟩ :=
        locateRefs_sound rest tgt path0 (i + 1) p off h
      refine ⟨j + 1, c0, suffix, c, by simpa using hget, ?_, hf, ha, hb, hc⟩
      rw [hp]
      have : i + 1 + j = i + (j + 1) := by omega
      rw [this]

end

/-- C4: whenever `locate` resolves a value slice from the dictionary root,
following the returned path of child-reference indices down from the root
reaches a cell whose references match the value's references in count and
per-index content hash (the reference comparison that gates every data
comparison), and reading that cell's data from the returned bit offset
onward reproduces exactly the value's bits; the search recurses into child
references in index order and returns the first success, as the recursion
structure of `locate`/`locateRefs` records. -/
theorem locate_path_reproduces_value :
    ∀ (root : Cell) (value : ValueSlice) (path : List Nat) (offset : Nat),
      locate root value [] = some (path, offset) →
      ∃ c : Cell, followPath root path = some c ∧
        offset ≤ c.bits.length ∧
        c.bits.drop offset = value.bits ∧
        slice_eq_children c.refs value.refs = true := by
  intro root value path offset h
  obtain ⟨suffix, c, hp, hf, h1, h2, h3⟩ := locate_sound root value [] path offset h
  simp only [List.nil_append] at hp
  subst hp
  exact ⟨c, hf, h1, h2, h3⟩

/-- Witness for C4: a two-cell tree in which the value's bits occur in the
child cell at bit offset 1; `locate` returns path [0] and offset 1, and
following that path and dropping one bit reproduces the value. -/
theorem locate_path_reproduces_value_witness :
    locate (Cell.mk [true, false] [Cell.mk [false, true, true] []])
        ⟨[true, true], []⟩ [] = some ([0], 1) ∧
    (∃ c : Cell, followPath (Cell.mk [true, false] [Cell.mk [false, true, true] []])
        [0] = some c ∧
      1 ≤ c.bits.length ∧ c.bits.drop 1 = [true, true] ∧
      slice_eq_children c.refs [] = true) :=
  ⟨rfl, locate_path_reproduces_value
    (Cell.mk [true, false] [Cell.mk [false, true, true] []])
    ⟨[true, true], []⟩ [0] 1 rfl⟩

theorem dictFindNext_mem {entries : List (Nat × ValueSlice)} {k k1 : Nat}
    {v1 : ValueSlice} (h : dictFindNext entries k = some (k1, v1)) :
    (k1, v1) ∈ entries ∧ k < k1 := by
  have hmem : (k1, v1) ∈ keysGreater entries k := minByKey_mem h
  refine ⟨List.mem_of_mem_filter hmem, ?_⟩
  have := List.of_mem_filter hmem
  simpa using this

theorem dictFindNext_least {entries : List (Nat × ValueSlice)} {k k1 : Nat}
    {v1 : ValueSlice} (h : dictFindNext entries k = some (k1, v1)) :
    ∀ e ∈ entries, k < e.1 → k1 ≤ e.1 := by
  intro e he hgt
  have : e ∈ keysGreater entries k := by
    simp only [keysGreater, List.mem_filter, he, true_and]
    simpa using hgt
  simpa using minByKey_le h e this

theorem dictFindNext_none {entries : List (Nat × ValueSlice)} {k : Nat}
    (h : dictFindNext entries k = none) : ∀ e ∈ entries, ¬k < e.1 := by
  intro e he hgt
  have hnil : keysGreater entries k = [] := minByKey_none_nil h
  have : e ∈ keysGreater entries k := by
    simp only [keysGreater, List.mem_filter, he, true_and]
    simpa using hgt
  rw [hnil] at this
  cases this

theorem lookup_none_iff {α β : Type} [BEq α] [LawfulBEq α]
    {l : List (α × β)} {a : α} :
    List.lookup a l = none ↔ a ∉ l.map Prod.fst := by
  induction l with
  | nil => simp
  | cons e rest ih =>
    by_cases he : a = e.1
    · subst he
      simp [List.lookup]
    · have hbe : (a == e.1) = false := by simpa using he
      simp [List.lookup, hbe, ih, he]

theorem markGo_ok_spec (root : Cell) (entries : List (Nat × ValueSlice))
    (hnd : (entries.map Prod.fst).Nodup) :
    ∀ (key : Nat) (value : ValueSlice) (st : MarkState) (st' : MarkState),
      markGo root entries key value st = .ok st' →
      ∃ vt : List (Nat × ValueSlice),
        st'.visited = st.visited ++ vt.map Prod.fst ∧
        vt.head? = some (key, value) ∧
        List.Chain' (· < ·) (vt.map Prod.fst) ∧
        (∀ e, e ∈ vt ↔ (e = (key, value) ∨ (e ∈ entries ∧ key < e.1))) ∧
        ∃ mt, st'.map = st.map ++ mt ∧
          List.Forall₂ (fun (e : Nat × ValueSlice)
              (m : List Nat × (Nat × Nat × List Instruction)) =>
            locate root e.2 [] = some (m.1, m.2.2.1) ∧ m.2.1 = e.1 ∧
            m.2.2.2 = Loader.load e.2) vt mt ∧
          ((st.map.map Prod.fst).Nodup → (st'.map.map Prod.fst).Nodup) := by
  intro key value st
  induction key, value, st using markGo.induct root entries with
  | case1 key value st hloc =>
    intro st' h
    rw [markGo_unfold, hloc] at h
    cases h
  | case2 key value st loc hloc hlk =>
    intro st' h
    rw [markGo_unfold, hloc] at h
    simp only [hlk, if_pos] at h
    cases h
  | case3 key value st loc hloc hlk hnext =>
    intro st' h
    rw [markGo_unfold, hloc] at h
    simp only [hlk, Bool.false_eq_true, if_false, if_neg, hnext] at h
    simp only [Except.ok.injEq] at h
    subst h
    refine ⟨[(key, value)], by simp, rfl, by simp, ?_, ?_⟩
    · intro e
      simp only [List.mem_singleton]
      constructor
      · intro he; exact Or.inl he
      · intro he
        rcases he with he | ⟨hmem, hgt⟩
        · exact he
        · exact absurd hgt (dictFindNext_none hnext e hmem)
    · refine ⟨[(loc.1, (key, loc.2, Loader.load value))], by simp, ?_, ?_⟩
      · exact List.Forall₂.cons ⟨hloc, rfl, rfl⟩ List.Forall₂.nil
      · intro hnd0
        have hnotin : loc.1 ∉ st.map.map Prod.fst := by
          rw [← lookup_none_iff]
          exact Option.not_isSome_iff_eq_none.mp hlk
        simp [List.nodup_append, hnd0, hnotin]
  | case4 key value st loc hloc code hlk st1 k1 v1 hnext ih =>
    intro st' h
    rw [markGo_unfold, hloc] at h
    simp only [hlk, Bool.false_eq_true, if_false, if_neg, hnext] at h
    obtain ⟨vt1, hvis1, hhead1, hchain1, hmem1, mt1, hmap1, hfa1, hnodup1⟩ :=
      ih st' h
    obtain ⟨hk1mem, hk1gt⟩ := dictFindNext_mem hnext
    refine ⟨(key, value) :: vt1, ?_, rfl, ?_, ?_, ?_⟩
    · simp only [hvis1, List.map_cons]
      simp
    · rw [List.map_cons, List.chain'_cons']
      refine ⟨?_, hchain1⟩
      intro y hy
      rw [List.head?_map, hhead1] at hy
      simp only [Option.mem_def, Option.map_some', Option.some.injEq] at hy
      subst hy
      exact hk1gt
    · intro e
      simp only [List.mem_cons, hmem1 e]
      constructor
      · rintro (he | he | ⟨hmem, hgt⟩)
        · exact Or.inl he
        · subst he; exact Or.inr ⟨hk1mem, hk1gt⟩
        · exact Or.inr ⟨hmem, lt_trans hk1gt hgt⟩
      · rintro (he | ⟨hmem, hgt⟩)
        · exact Or.inl he
        · by_cases hek : e.1 = k1
          · have : e = (k1, v1) :=
              List.inj_on_of_nodup_map hnd hmem hk1mem (by simpa using hek)
            exact Or.inr (Or.inl this)
          · have hle : k1 ≤ e.1 := dictFindNext_least hnext e hmem hgt
            exact Or.inr (Or.inr ⟨hmem, lt_of_le_of_ne hle (fun hc => hek hc.symm)⟩)
    · refine ⟨(loc.1, (key, loc.2, Loader.load value)) :: mt1, ?_, ?_, ?_⟩
      · rw [hmap1]
        simp
      · exact List.Forall₂.cons ⟨hloc, rfl, rfl⟩ hfa1
      · intro hnd0
        apply hnodup1
        have hnotin : loc.1 ∉ st.map.map Prod.fst := by
          rw [← lookup_none_iff]
          exact Option.not_isSome_iff_eq_none.mp hlk
        simp [List.nodup_append, hnd0, hnotin]

theorem markGo_ok_or_nonunique (root : Cell) (entries : List (Nat × ValueSlice))
    (hloc : ∀ e ∈ entries, (locate root e.2 []).isSome) :
    ∀ (key : Nat) (value : ValueSlice) (st : MarkState), (key, value) ∈ entries →
      (∃ st', markGo root entries key value st = .ok st') ∨
      markGo root entries key value st = .error "non-unique path found" := by
  intro key value st
  induction key, value, st using markGo.induct root entries with
  | case1 key value st hl =>
    intro hkv
    have hs := hloc _ hkv
    rw [hl] at hs
    cases hs
  | case2 key value st loc hl hlk =>
    intro hkv
    right
    rw [markGo_unfold, hl]
    simp [hlk]
  | case3 key value st loc hl hlk hnext =>
    intro hkv
    left
    refine ⟨⟨st.map ++ [(loc.1, (key, loc.2, Loader.load value))],
      st.visited ++ [key]⟩, ?_⟩
    rw [markGo_unfold, hl]
    simp only [hlk, Bool.false_eq_true, if_false, if_neg, hnext]
  | case4 key value st loc hl code hlk st1 k1 v1 hnext ih =>
    intro hkv
    have hk1 : (k1, v1) ∈ entries := (dictFindNext_mem hnext).1
    rcases ih hk1 with ⟨st', hok⟩ | herr
    · left
      refine ⟨st', ?_⟩
      rw [markGo_unfold, hl]
      simp only [hlk, Bool.false_eq_true, if_false, if_neg, hnext]
      exact hok
    · right
      rw [markGo_unfold, hl]
      simp only [hlk, Bool.false_eq_true, if_false, if_neg, hnext]
      exact herr

theorem markGo_ok_of_inj (root : Cell) (entries : List (Nat × ValueSlice))
    (hinj : ∀ e1 ∈ entries, ∀ e2 ∈ entries,
      (locate root e1.2 []).map Prod.fst = (locate root e2.2 []).map Prod.fst →
        e1 = e2) :
    ∀ (key : Nat) (value : ValueSlice) (st : MarkState), (key, value) ∈ entries →
      (∀ e ∈ entries, (locate root e.2 []).isSome) →
      (∀ pa ∈ st.map.map Prod.fst, ∀ e ∈ entries, key ≤ e.1 →
        (locate root e.2 []).map Prod.fst ≠ some pa) →
      ∃ st', markGo root entries key value st = .ok st' := by
  intro key value st
  induction key, value, st using markGo.induct root entries with
  | case1 key value st hl =>
    intro hkv hloc hdis
    have hs := hloc _ hkv
    rw [hl] at hs
    cases hs
  | case2 key value st loc hl hlk =>
    intro hkv hloc hdis
    exfalso
    have hmem : loc.1 ∈ st.map.map Prod.fst := by
      by_contra hnm
      rw [← lookup_none_iff] at hnm
      rw [hnm] at hlk
      simp at hlk
    refine hdis loc.1 hmem (key, value) hkv (le_refl key) ?_
    rw [hl]
    rfl
  | case3 key value st loc hl hlk hnext =>
    intro hkv hloc hdis
    refine ⟨⟨st.map ++ [(loc.1, (key, loc.2, Loader.load value))],
      st.visited ++ [key]⟩, ?_⟩
    rw [markGo_unfold, hl]
    simp only [hlk, Bool.false_eq_true, if_false, if_neg, hnext]
  | case4 key value st loc hl code hlk st1 k1 v1 hnext ih =>
    intro hkv hloc hdis
    have hk1mem : (k1, v1) ∈ entries := (dictFindNext_mem hnext).1
    have hk1gt : key < k1 := (dictFindNext_mem hnext).2
    have hdis1 : ∀ pa ∈ st1.map.map Prod.fst, ∀ e ∈ entries, k1 ≤ e.1 →
        (locate root e.2 []).map Prod.fst ≠ some pa := by
      intro pa hpa e he hle heq
      simp only [st1, List.map_append, List.mem_append, List.map_cons,
        List.mem_singleton, List.map_nil, List.mem_cons, List.not_mem_nil,
        or_false] at hpa
      rcases hpa with hpa | hpa
      · exact hdis pa hpa e he (le_trans (le_of_lt hk1gt) hle) heq
      · subst hpa
        have he2 : e = (key, value) := by
          apply hinj e he (key, value) hkv
          rw [heq, hl]
          rfl
        rw [he2] at hle
        simp at hle
        omega
    rcases ih hk1mem hloc hdis1 with ⟨st', hok⟩
    refine ⟨st', ?_⟩
    rw [markGo_unfold, hl]
    simp only [hlk, Bool.false_eq_true, if_false, if_neg, hnext]
    exact hok

theorem vt_covers_entries {entries vt : List (Nat × ValueSlice)}
    {k : Nat} {v : ValueSlice}
    (hnd : (entries.map Prod.fst).Nodup)
    (hmin : dictFindMin entries = some (k, v))
    (hmem : ∀ e, e ∈ vt ↔ (e = (k, v) ∨ (e ∈ entries ∧ k < e.1))) :
    ∀ e, e ∈ vt ↔ e ∈ entries := by
  intro e
  rw [hmem e]
  constructor
  · rintro (he | ⟨he, _⟩)
    · subst he
      exact minByKey_mem hmin
    · exact he
  · intro he
    by_cases heq : e.1 = k
    · left
      exact List.inj_on_of_nodup_map hnd he (minByKey_mem hmin) (by simpa using heq)
    · right
      exact ⟨he, lt_of_le_of_ne (minByKey_le hmin e he) (fun hc => heq hc.symm)⟩

theorem map_fst_mem_iff {l1 l2 : List (Nat × ValueSlice)}
    (h : ∀ e, e ∈ l1 ↔ e ∈ l2) :
    ∀ k, k ∈ l1.map Prod.fst ↔ k ∈ l2.map Prod.fst := by
  intro k
  simp only [List.mem_map]
  exact ⟨fun ⟨e, he, hk⟩ => ⟨e, (h e).mp he, hk⟩,
    fun ⟨e, he, hk⟩ => ⟨e, (h e).mpr he, hk⟩⟩

/-- C8: on a well-formed dictionary model, `mark` visits the keys in strictly
ascending numeric order — the minimum first, then repeatedly the least key
strictly greater than the current one — and visits every key of the
dictionary exactly once (the visit order is strictly increasing, hence free
of repetitions, and contains exactly the dictionary's keys). -/
theorem mark_visits_keys_ascending :
    ∀ (root : Cell) (entries : List (Nat × ValueSlice)) (st : MarkState),
      (entries.map Prod.fst).Nodup →
      mark (DictModel.ofEntries root entries) = .ok st →
      List.Chain' (· < ·) st.visited ∧
      (∀ k, k ∈ st.visited ↔ k ∈ entries.map Prod.fst) := by
  intro root entries st hnd hmark
  rw [mark] at hmark
  cases hmin : dictFindMin entries with
  | none =>
    have hnil : entries = [] := minByKey_none_nil hmin
    subst hnil
    simp only [DictModel.ofEntries, dictFindMin, minByKey] at hmark
    simp only [Except.ok.injEq] at hmark
    subst hmark
    simp
  | some kv =>
    obtain ⟨k, v⟩ := kv
    simp only [DictModel.ofEntries, hmin] at hmark
    obtain ⟨vt, hvis, hhead, hchain, hmem, _⟩ :=
      markGo_ok_spec root entries hnd k v ⟨[], []⟩ st hmark
    have hcover := vt_covers_entries hnd hmin hmem
    constructor
    · rw [hvis]
      simpa using hchain
    · intro k'
      rw [hvis]
      simp only [MarkState.visited, List.nil_append]
      exact map_fst_mem_iff hcover k'

/-- A two-key dictionary model used as concrete witness input: key 0 maps to
the bits of the first child cell and key 1 to those of the second. -/
def root2 : Cell := .mk [] [.mk [false] [], .mk [true] []]

/-- The logical entries of `root2`. -/
def entries2 : List (Nat × ValueSlice) := [(0, ⟨[false], []⟩), (1, ⟨[true], []⟩)]

/-- The state `mark` computes on `root2`/`entries2`. -/
def stC : MarkState :=
  ⟨[([0], (0, 0, Loader.load ⟨[false], []⟩)),
    ([1], (1, 0, Loader.load ⟨[true], []⟩))], [0, 1]⟩

theorem mark_concrete_run :
    mark (DictModel.ofEntries root2 entries2) = .ok stC := by
  show markGo root2 entries2 0 ⟨[false], []⟩ ⟨[], []⟩ = .ok stC
  rw [markGo_unfold]
  show markGo root2 entries2 1 ⟨[true], []⟩
      ⟨[([0], (0, 0, Loader.load ⟨[false], []⟩))], [0]⟩ = .ok stC
  rw [markGo_unfold]
  rfl

/-- Witness for C8: on the concrete two-key dictionary the computed visit
order is strictly ascending and covers exactly the keys. -/
theorem mark_visits_keys_ascending_witness :
    List.Chain' (· < ·) stC.visited ∧
    (∀ k, k ∈ stC.visited ↔ k ∈ entries2.map Prod.fst) :=
  mark_visits_keys_ascending root2 entries2 stC (by decide) mark_concrete_run

theorem forall₂_map_eq {α β γ : Type} {R : α → β → Prop} {f : α → γ} {g : β → γ}
    {l1 : List α} {l2 : List β} (h : List.Forall₂ R l1 l2)
    (hfg : ∀ a b, R a b → f a = g b) : l1.map f = l2.map g := by
  induction h with
  | nil => rfl
  | cons hab _ ih => simp [hfg _ _ hab, ih]

/-- C5: with every value slice locatable in the physical tree and distinct
keys, `mark` fails with the "non-unique path found" error whenever two
distinct entries resolve to the same physical path, and when all resolved
paths are pairwise distinct it returns Ok having populated exactly one map
entry per key — the map has one entry per dictionary entry, stores each
key id in visit order, and the visited keys are exactly the dictionary's
keys. -/
theorem mark_unique_paths_and_counts :
    ∀ (root : Cell) (entries : List (Nat × ValueSlice)),
      (entries.map Prod.fst).Nodup →
      (∀ e ∈ entries, (locate root e.2 []).isSome) →
      ((∃ e1 ∈ entries, ∃ e2 ∈ entries, e1 ≠ e2 ∧
          (locate root e1.2 []).map Prod.fst =
            (locate root e2.2 []).map Prod.fst) →
        mark (DictModel.ofEntries root entries) =
          .error "non-unique path found") ∧
      ((∀ e1 ∈ entries, ∀ e2 ∈ entries,
          (locate root e1.2 []).map Prod.fst =
            (locate root e2.2 []).map Prod.fst → e1 = e2) →
        ∃ st, mark (DictModel.ofEntries root entries) = .ok st ∧
          st.map.length = entries.length ∧
          st.map.map (fun m => m.2.1) = st.visited ∧
          (∀ k, k ∈ st.visited ↔ k ∈ entries.map Prod.fst)) := by
  intro root entries hnd hloc
  constructor
  · rintro ⟨e1, he1, e2, he2, hne, hpeq⟩
    cases hmin : dictFindMin entries with
    | none =>
      exfalso
      have hnil := minByKey_none_nil hmin
      rw [hnil] at he1
      cases he1
    | some kv =>
      obtain ⟨k, v⟩ := kv
      have hkv : (k, v) ∈ entries := minByKey_mem hmin
      rw [mark]
      simp only [DictModel.ofEntries, hmin]
      rcases markGo_ok_or_nonunique root entries hloc k v ⟨[], []⟩ hkv with
        ⟨st', hok⟩ | herr
      · exfalso
        obtain ⟨vt, hvis, hhead, hchain, hmem, mt, hmap, hfa, hnodup⟩ :=
          markGo_ok_spec root entries hnd k v ⟨[], []⟩ st' hok
        have hcover := vt_covers_entries hnd hmin hmem
        have hpathsnd : (mt.map Prod.fst).Nodup := by
          have hn := hnodup (by simp)
          rw [hmap] at hn
          simpa using hn
        rw [List.forall₂_iff_get] at hfa
        obtain ⟨hlen, hget⟩ := hfa
        obtain ⟨n1, hn1⟩ := List.mem_iff_get.mp ((hcover e1).mpr he1)
        obtain ⟨n2, hn2⟩ := List.mem_iff_get.mp ((hcover e2).mpr he2)
        have hne12 : (n1 : Nat) ≠ (n2 : Nat) := by
          intro hc
          apply hne
          rw [← hn1, ← hn2]
          congr 1
          exact Fin.ext hc
        have hb1 : (n1 : Nat) < mt.length := by omega
        have hb2 : (n2 : Nat) < mt.length := by omega
        have h1 := hget n1 n1.isLt hb1
        have h2 := hget n2 n2.isLt hb2
        rw [hn1] at h1
        rw [hn2] at h2
        have hp12 : (mt.get ⟨n1, hb1⟩).1 = (mt.get ⟨n2, hb2⟩).1 := by
          have hq1 : (locate root e1.2 []).map Prod.fst =
              some (mt.get ⟨n1, hb1⟩).1 := by rw [h1.1]; rfl
          have hq2 : (locate root e2.2 []).map Prod.fst =
              some (mt.get ⟨n2, hb2⟩).1 := by rw [h2.1]; rfl
          rw [hq1, hq2] at hpeq
          exact Option.some.inj hpeq
        have hmb1 : (n1 : Nat) < (mt.map Prod.fst).length := by simpa using hb1
        have hmb2 : (n2 : Nat) < (mt.map Prod.fst).length := by simpa using hb2
        have hmapget : (mt.map Prod.fst).get ⟨n1, hmb1⟩ =
            (mt.map Prod.fst).get ⟨n2, hmb2⟩ := by
          simpa [List.getElem_map] using hp12
        have := (hpathsnd.get_inj_iff).mp hmapget
        exact hne12 (congrArg (fun i : Fin (mt.map Prod.fst).length => (i : Nat)) this)
      · exact herr
  · intro hinj
    cases hmin : dictFindMin entries with
    | none =>
      have hnil := minByKey_none_nil hmin
      subst hnil
      refine ⟨⟨[], []⟩, rfl, by simp, by simp, by simp⟩
    | some kv =>
      obtain ⟨k, v⟩ := kv
      have hkv : (k, v) ∈ entries := minByKey_mem hmin
      obtain ⟨st', hok⟩ :=
        markGo_ok_of_inj root entries hinj k v ⟨[], []⟩ hkv hloc (by simp)
      obtain ⟨vt, hvis, hhead, hchain, hmem, mt, hmap, hfa, hnodup⟩ :=
        markGo_ok_spec root entries hnd k v ⟨[], []⟩ st' hok
      have hcover := vt_covers_entries hnd hmin hmem
      have hvtnd : vt.Nodup := by
        have hfstnd : (vt.map Prod.fst).Nodup := by
          have hpw := List.chain'_iff_pairwise.mp hchain
          exact hpw.imp (fun hab => ne_of_lt hab)
        exact List.Nodup.of_map Prod.fst hfstnd
      have hentnd : entries.Nodup := List.Nodup.of_map Prod.fst hnd
      have hsub1 : vt ⊆ entries := fun e he => (hcover e).mp he
      have hsub2 : entries ⊆ vt := fun e he => (hcover e).mpr he
      have hlenvt : vt.length = entries.length :=
        le_antisymm (List.subperm_of_subset hvtnd hsub1).length_le
          (List.subperm_of_subset hentnd hsub2).length_le
      have hlenmt : vt.length = mt.length := hfa.length_eq
      refine ⟨st', ?_, ?_, ?_, ?_⟩
      · rw [mark]
        simp only [DictModel.ofEntries, hmin]
        exact hok
      · rw [hmap]
        simp only [MarkState.map, List.nil_append]
        omega
      · rw [hmap, hvis]
        simp only [MarkState.map, MarkState.visited, List.nil_append]
        exact (forall₂_map_eq hfa (fun a b hab => hab.2.1.symm)).symm
      · intro k'
        rw [hvis]
        simp only [MarkState.visited, List.nil_append]
        exact map_fst_mem_iff hcover k'

/-- A colliding dictionary model: two distinct keys whose (identical) value
slices resolve to the same physical path. -/
def root3 : Cell := .mk [] [.mk [true, false] []]

/-- The entries of `root3`: both values locate at path [0], offset 0. -/
def entries3 : List (Nat × ValueSlice) :=
  [(0, ⟨[true, false], []⟩), (1, ⟨[true, false], []⟩)]

/-- Witness for C5: on the colliding dictionary `mark` fails with the
non-unique-path error, and on the well-formed two-key dictionary it returns
Ok with one map entry per key, ids in visit order, and visited keys exactly
the dictionary's keys. -/
theorem mark_unique_paths_and_counts_witness :
    mark (DictModel.ofEntries root3 entries3) =
      .error "non-unique path found" ∧
    (∃ st, mark (DictModel.ofEntries root2 entries2) = .ok st ∧
      st.map.length = entries2.length ∧
      st.map.map (fun m => m.2.1) = st.visited ∧
      (∀ k, k ∈ st.visited ↔ k ∈ entries2.map Prod.fst)) :=
  ⟨(mark_unique_paths_and_counts root3 entries3 (by decide) (by decide)).1
      ⟨(0, ⟨[true, false], []⟩), List.mem_cons_self _ _,
        (1, ⟨[true, false], []⟩), List.mem_cons_of_mem _ (List.mem_cons_self _ _),
        by simp, rfl⟩,
    (mark_unique_paths_and_counts root2 entries2 (by decide) (by decide)).2
      (by
        intro e1 h1 e2 h2 h12
        fin_cases h1 <;> fin_cases h2 <;>
          first
            | rfl
            | exact absurd h12 (by decide))⟩

/-- C10: when the dictionary has no keys, and equally when the initial
minimum-key lookup reports an error, `mark` returns Ok with the resolved map
left empty — the lookup error is silently discarded, so the two situations
are indistinguishable to the caller. -/
theorem mark_discards_min_lookup_error :
    ∀ (root : Cell) (entries : List (Nat × ValueSlice)) (msg : String),
      mark ⟨root, entries, .error msg⟩ = .ok ⟨[], []⟩ ∧
      mark (DictModel.ofEntries root []) = .ok ⟨[], []⟩ ∧
      mark ⟨root, entries, .error msg⟩ = mark (DictModel.ofEntries root []) :=
  fun _ _ _ => ⟨rfl, rfl, rfl⟩
